import Mathlib

/-!
Verification of the kovid-obfuscation-passes transformation engine.

Shallow embedding of the pass sources:
* Symbol codec (`encryptFunctionName` / `decryptFunctionName` from the
  RenameCode LLVM plugin and the standalone `kovid-deobfuscator` CLI),
  with C++ partiality (`i % key.size()` on an empty key, exceptions
  escaping `std::stoi`) made explicit through an outcome type.
* The rename driver `runCodeRename` and the deobfuscator `main`.
* The instruction-pattern rewriter (`InstructionObfuscationPass::run`).
* The CFG block splitter (`SimplifiedBreakCFPass::run`).
* The control-flow flattening engine
  (`SimplifiedControlFlowFlattenPass::run`).
* The unused-internal-function pruner
  (`RemoveMetadataAndUnusedCodePass::run`).

Strings are modelled as lists of byte values (`List Nat`, each element the
numeric value of one `char` read as `unsigned char`, hence `< 256` for any
value a C++ `std::string` can hold).
-/

namespace KovidObf

/-- Abnormal outcomes of the modelled C++ code: `modByZero` marks the point
where `i % key.size()` is evaluated with `key.size() == 0` (undefined
behavior / out-of-range `operator[]` in the source), `stoiException` marks an
exception escaping `std::stoi` (no hex digit to convert). -/
inductive CxxErr where
  | modByZero
  | stoiException
deriving DecidableEq, Repr

/-- Result of running a piece of modelled C++ code: either a normal value or
one of the abnormal outcomes of `CxxErr`. -/
inductive CxxOutcome (α : Type) where
  | ok (val : α)
  | err (e : CxxErr)
deriving DecidableEq, Repr

/-! ## Symbol codec

Source: `src/unnamed/part_001`, `encryptFunctionName` (lines 40-53) and
`decryptFunctionName` (lines 56-71); the CLI copy of the decoder is
`src/unnamed/part_010` lines 36-52 and is textually identical in the parts
modelled here. -/

/-- The XOR loop of `encryptFunctionName` / `decryptFunctionName`:
`out[i] = in[i] ^ key[i % key.size()]`, truncated to a byte by the `char`
store (`push_back`).  The `getD` default is never consulted by callers,
because every caller either guards `key ≠ []` or reports `modByZero` first:
for a non-empty `key`, `i % key.length < key.length`. -/
def xorWithKey (key : List Nat) : Nat → List Nat → List Nat
  | _, [] => []
  | i, b :: rest =>
      ((b ^^^ key.getD (i % key.length) 0) % 256) :: xorWithKey key (i + 1) rest

/-- ASCII code of the lowercase hex digit `d` (`0..15`), as produced by
`std::hex` with the default lowercase formatting. -/
def hexDigitChar (d : Nat) : Nat := if d < 10 then 48 + d else 87 + d

/-- Rendering of one byte by `oss << std::hex << std::setw(2) <<
std::setfill('0') << int(c)`: two lowercase hex digits, zero-padded.  The
argument is an `unsigned char`, i.e. `< 256`, so the width is exactly 2. -/
def hexByte (c : Nat) : List Nat := [hexDigitChar (c / 16), hexDigitChar (c % 16)]

/-- `encryptFunctionName(name, key)`.  The source has no empty-key guard: if
`key` is empty the first loop iteration evaluates `i % key.size()` with size
zero, which the model reports as `modByZero`; an empty `name` never enters
the loop and yields the empty string. -/
def encryptFunctionName (name key : List Nat) : CxxOutcome (List Nat) :=
  match key with
  | [] => if name.isEmpty then .ok [] else .err .modByZero
  | _ :: _ => .ok ((xorWithKey key 0 name).map hexByte).flatten

/-- Space characters skipped by `std::stoi` (via `strtol`): `' '` and
`'\t'..'\r'`. -/
def isSpaceChar (c : Nat) : Bool := decide (c = 32 ∨ (9 ≤ c ∧ c ≤ 13))

/-- Hex digit characters accepted by `std::stoi` with base 16:
`0-9`, `a-f`, `A-F`. -/
def isHexDigitChar (c : Nat) : Bool :=
  decide ((48 ≤ c ∧ c ≤ 57) ∨ (97 ≤ c ∧ c ≤ 102) ∨ (65 ≤ c ∧ c ≤ 70))

/-- Numeric value of a hex digit character. -/
def hexDigitVal (c : Nat) : Nat :=
  if c ≤ 57 then c - 48 else if c ≤ 70 then c - 55 else c - 87

/-- Accumulate the maximal run of hex digits (the `strtol` digit loop). -/
def hexRun : Nat → List Nat → Nat
  | acc, [] => acc
  | acc, c :: rest =>
      if isHexDigitChar c then hexRun (acc * 16 + hexDigitVal c) rest else acc

/-- Strip a `0x`/`0X` base marker, which `strtol` consumes only when a hex
digit follows it. -/
def stripHex0x : List Nat → List Nat
  | z :: x :: d :: rest =>
      if z == 48 && (x == 120 || x == 88) && isHexDigitChar d then d :: rest
      else z :: x :: d :: rest
  | l => l

/-- Digit parsing after whitespace/sign/base handling: `strtol` needs at
least one digit, otherwise `std::stoi` throws `std::invalid_argument`. -/
def parseDigits : List Nat → Option Nat
  | [] => none
  | c :: rest =>
      if isHexDigitChar c then some (hexRun (hexDigitVal c) rest) else none

/-- `std::stoi(s, nullptr, 16)`: skip whitespace, take an optional sign,
consume an optional `0x` marker, then require at least one hex digit;
`none` models the thrown `std::invalid_argument`.  The decoder only ever
passes strings of length one or two (`substr(i, 2)`), so the
`std::out_of_range` overflow path is unreachable and not modelled. -/
def stoi16 (s : List Nat) : Option Int :=
  match s.dropWhile isSpaceChar with
  | [] => none
  | c :: r =>
      if c == 43 then (parseDigits (stripHex0x r)).map Int.ofNat
      else if c == 45 then (parseDigits (stripHex0x r)).map (fun v => -(Int.ofNat v))
      else (parseDigits (stripHex0x (c :: r))).map Int.ofNat

/-- The groups visited by `for (i = 0; i < hexStr.size(); i += 2)
hexStr.substr(i, 2)`: pairs of characters, with a final singleton when the
length is odd. -/
def chunkPairs : List Nat → List (List Nat)
  | [] => []
  | [a] => [[a]]
  | a :: b :: rest => [a, b] :: chunkPairs rest

/-- The decoder's first loop: `std::stoi` on each group in order; a thrown
exception aborts the whole loop (later groups are never parsed). -/
def parseHexGroups : List (List Nat) → Option (List Int)
  | [] => some []
  | g :: gs =>
      match stoi16 g with
      | none => none
      | some v => (parseHexGroups gs).map (fun vs => v :: vs)

/-- `static_cast<char>` of the `std::stoi` result, read back as a byte. -/
def byteOfInt (v : Int) : Nat := (v % 256).toNat

/-- `decryptFunctionName(hexStr, key)`: parse every 2-character group back to
a byte, then XOR with the repeating key.  There is no format validation in
the source; an unparseable group surfaces as the escaped `std::stoi`
exception, and an empty key reaches `i % key.size()` with size zero as soon
as the parsed byte string is non-empty. -/
def decryptFunctionName (hexStr key : List Nat) : CxxOutcome (List Nat) :=
  match parseHexGroups (chunkPairs hexStr) with
  | none => .err .stoiException
  | some vs =>
      let xored := vs.map byteOfInt
      match key with
      | [] => if xored.isEmpty then .ok [] else .err .modByZero
      | _ :: _ => .ok (xorWithKey key 0 xored)

/-- `runCodeRename` (src/unnamed/part_001 lines 73-102, src/unnamed/part_002
lines 144-169): skip declarations and non-local-linkage functions, otherwise
rename the function to `"_" + encryptFunctionName(name, key)`.  The result
is `some newName` when the function was renamed, `none` when skipped. -/
def runCodeRename (isDeclaration hasLocalLinkage : Bool) (originalName key : List Nat) :
    CxxOutcome (Option (List Nat)) :=
  if isDeclaration then .ok none
  else if !hasLocalLinkage then .ok none
  else
    match encryptFunctionName originalName key with
    | .err e => .err e
    | .ok enc => .ok (some (95 :: enc))

/-- `main` of the standalone decoder (src/unnamed/part_010 lines 54-77):
print help and exit 0 when `-h` is set; exit 1 when the key or the encoded
name is missing or empty; otherwise decrypt and print, exiting 0.  An
exception escaping `decryptFunctionName` terminates the process abnormally
(modelled as `.err`). -/
def mainDeobfuscator (help : Bool) (cryptoKey encryptedName : List Nat) :
    CxxOutcome Nat :=
  if help then .ok 0
  else if cryptoKey.isEmpty || encryptedName.isEmpty then .ok 1
  else
    match decryptFunctionName encryptedName cryptoKey with
    | .err e => .err e
    | .ok _ => .ok 0

/-! ## Instruction pattern rewriter

Source: `src/InstructionObfuscation/LLVM/InstructionObfuscation.cpp`,
`InstructionObfuscationPass::run` (lines 52-119).  The rewritten sequence
for `%result = add i32 %a, %b` is: volatile store of 0 to a fresh alloca,
volatile load from it, `add` 42, `sub` 42, `add` into `%a`, final `add` with
`%b`.  All arithmetic is on `i32`, i.e. modulo `2 ^ 32`. -/

/-- Semantics of the original `add i32 %a, %b` on bit patterns. -/
def int32Add (a b : Nat) : Nat := (a + b) % 2 ^ 32

/-- Value computed by the replacement sequence.  The volatile store/load pair
is modelled as an explicit memory cell: `0` is stored, then loaded back (no
other write to `dummyForObf` exists between the two accesses). -/
def obfAddSequence (a b : Nat) : Nat :=
  let dummyCell : Nat := 0             -- volatile store of 0 into %dummyForObf
  let dummyLoad : Nat := dummyCell     -- volatile load from %dummyForObf
  let dummy := (dummyLoad + 42) % 2 ^ 32
  let temp := (dummy + 2 ^ 32 - 42) % 2 ^ 32
  let left := (a + temp) % 2 ^ 32
  (left + b) % 2 ^ 32

/-! ## CFG data model

Shared by the CFG block splitter and the flattening engine.  A function is
its layout-ordered list of basic blocks; the entry block is the first one.
Block identities are names: the splitter derives the new block's name from
the original by appending `".split"`, modelled by the `split` constructor. -/

/-- Identity of a basic block.  `split p` is the block the CFG splitter
creates from block `p` (`BB.getName() + ".split"` in the source). -/
inductive BlockId where
  | named (n : Nat)
  | split (parent : BlockId)
deriving DecidableEq, Repr

/-- Terminator instructions, with their successor lists derived from the
operands exactly as in LLVM IR: an unconditional branch has one successor, a
conditional branch two, a switch its default plus one per case, a return
none. -/
inductive Terminator where
  | br (target : BlockId)
  | condbr (cond : Bool) (ifTrue ifFalse : BlockId)
  | switchBr (defaultTarget : BlockId) (cases : List (Nat × BlockId))
  | retTerm
deriving DecidableEq, Repr

/-- Successor blocks of a terminator. -/
def successors : Terminator → List BlockId
  | .br t => [t]
  | .condbr _ a b => [a, b]
  | .switchBr d cs => d :: cs.map (fun c => c.2)
  | .retTerm => []

/-- `getSuccessor(0)`; callers only use it on terminators with at least one
successor, so the default is never consulted there. -/
def termSuccessor0 (t : Terminator) : BlockId := (successors t).getD 0 (.named 0)

/-- A basic block: its name, the number of non-terminator instructions, and
its terminator.  `term = none` models a (defensively handled) block whose
last instruction is not a terminator, where `getTerminator()` is null. -/
structure BasicBlock where
  bid : BlockId
  bodyLen : Nat
  term : Option Terminator
deriving DecidableEq, Repr

/-- `BB.size()`: total number of instructions, terminator included. -/
def blockSize (b : BasicBlock) : Nat :=
  b.bodyLen + (match b.term with | some _ => 1 | none => 0)

/-- Whether `getTerminator()` is non-null with exactly one successor. -/
def hasSingleSucc (b : BasicBlock) : Bool :=
  match b.term with
  | some t => (successors t).length == 1
  | none => false

/-- `Term->getSuccessor(0)` of a block (callers guard `hasSingleSucc`). -/
def blockSucc0 (b : BasicBlock) : BlockId :=
  termSuccessor0 (b.term.getD .retTerm)

/-! ## CFG block splitter

Source: `src/BreakCFG/LLVM/BreakCFG.cpp`, `SimplifiedBreakCFPass::run`
(lines 38-94).  Phase 1 collects, in layout order, every block that is not
the entry block, has `size() > 1`, has a terminator, and has exactly one
successor.  Phase 2 walks the collected blocks: each gets a fresh block
inserted immediately after it holding a single unconditional branch to the
old successor, and its terminator is replaced by `br i1 false, origSucc,
splitBlock`.  Since every insertion is immediately after its own block and
the collected blocks are pairwise distinct, the two phases are equivalent to
one in-place traversal expanding each collected block into the pair; the
membership test below plays the role of pointer identity, which is why the
theorems assume block names are distinct (`Nodup`). -/

/-- Phase 1: eligibility test applied to the non-entry blocks. -/
def breakEligible (b : BasicBlock) : Bool :=
  decide (1 < blockSize b) && hasSingleSucc b

/-- Phase 1: `blocksToTransform`, as block names.  The entry block (head of
the layout) is skipped by pointer identity in the source. -/
def breakCFGCollect (f : List BasicBlock) : List BlockId :=
  match f with
  | [] => []
  | _ :: rest => (rest.filter breakEligible).map (fun b => b.bid)

/-- Phase 2 body for one collected block: re-fetch the terminator, re-check
the successor count, then emit the rewritten block followed by its split
block. -/
def breakTransformBlock (b : BasicBlock) : List BasicBlock :=
  match b.term with
  | none => [b]
  | some t =>
      if (successors t).length == 1 then
        let succ0 := termSuccessor0 t
        [{ b with term := some (.condbr false succ0 (.split b.bid)) },
         { bid := .split b.bid, bodyLen := 0, term := some (.br succ0) }]
      else [b]

/-- The whole pass: expand each collected block in place. -/
def breakCFGRun (f : List BasicBlock) : List BasicBlock :=
  let marked := breakCFGCollect f
  (f.map (fun b => if b.bid ∈ marked then breakTransformBlock b else [b])).flatten

/-- Per-block action as the specification words it: an eligible block (more
than one instruction, terminator with exactly one successor) becomes a
conditional branch on constant false (true target the original successor,
false target the new split block) followed immediately by the split block,
whose sole instruction is an unconditional branch to the original successor;
any other block is unchanged. -/
def breakClaimBlock (b : BasicBlock) : List BasicBlock :=
  match b.term with
  | some t =>
      if decide (1 < blockSize b) && ((successors t).length == 1) then
        [{ b with term := some (.condbr false (termSuccessor0 t) (.split b.bid)) },
         { bid := .split b.bid, bodyLen := 0, term := some (.br (termSuccessor0 t)) }]
      else [b]
  | none => [b]

/-- The transformation as the specification words it: the entry block is
kept, and exactly the eligible non-entry blocks are rewritten per
`breakClaimBlock`. -/
def breakCFGPerClaim (f : List BasicBlock) : List BasicBlock :=
  match f with
  | [] => []
  | e :: rest => e :: (rest.map breakClaimBlock).flatten

/-! ## Control-flow flattening engine

Source: `src/unnamed/part_012`, `SimplifiedControlFlowFlattenPass::run`
(lines 159-217; the legacy-PM copy at lines 60-143 is identical in the parts
modelled here).  The pass skips functions with fewer than two blocks,
collects the non-entry blocks having a terminator with exactly one
successor, creates a dispatcher holding `switch (blockID)` with default
target the entry block, and then numbers the collected blocks with
`NextID = 1, 2, ...`, adding for each a switch case `(ThisID -> BB)` and
replacing its terminator by `store NextBlockID, %blockID; br %dispatcher`
with `NextBlockID = (Succ == Entry) ? 0 : ThisID + 1` (lines 199-213). -/

/-- Outcome of the flattening loop: the switch cases added to the dispatcher
(in order), and, per flattened block, the constant stored into the blockID
state variable immediately before the new branch to the dispatcher. -/
structure FlattenResult where
  cases : List (Nat × BlockId)
  writes : List (BlockId × Nat)
deriving DecidableEq, Repr

/-- The numbering/rewrite loop over the collected blocks, carrying
`NextID`. -/
def flattenLoop (entry : BlockId) : Nat → List BasicBlock → FlattenResult
  | _, [] => ⟨[], []⟩
  | nextId, b :: rest =>
      let thisId := nextId
      let succ := blockSucc0 b
      let nextBlockId := if succ = entry then 0 else thisId + 1
      let r := flattenLoop entry (nextId + 1) rest
      ⟨(thisId, b.bid) :: r.cases, (b.bid, nextBlockId) :: r.writes⟩

/-- The collected flattenable blocks: non-entry blocks with a terminator
having exactly one successor, in layout order. -/
def collectFlattenBlocks (f : List BasicBlock) : List BasicBlock :=
  match f with
  | [] => []
  | _ :: rest => rest.filter hasSingleSucc

/-- Name of the entry block (head of the layout). -/
def entryBid (f : List BasicBlock) : BlockId :=
  match f with
  | [] => .named 0
  | e :: _ => e.bid

/-- The flattening pass on one function: `none` when the function is left
unchanged (fewer than two blocks, or nothing to flatten), otherwise the
cases and state-variable writes it produces. -/
def flattenFunction (f : List BasicBlock) : Option FlattenResult :=
  if f.length < 2 then none
  else if (collectFlattenBlocks f).isEmpty then none
  else some (flattenLoop (entryBid f) 1 (collectFlattenBlocks f))

/-- The identifier the dispatcher associates with a block: the unique switch
case whose target is that block. -/
def assignedIdOf (r : FlattenResult) (b : BlockId) : Option Nat :=
  (r.cases.find? (fun c => c.2 == b)).map (fun c => c.1)

/-! ## Unused-internal-function pruner

Source: `src/unnamed/part_009`, `RemoveMetadataAndUnusedCodePass::run`,
unused-function removal at lines 69-79: collect into `ToRemove` every
function that is a definition, has internal linkage and has an empty use
list, then erase exactly the collected functions. -/

/-- A function symbol as the pruner sees it. -/
structure IRFunction where
  fname : Nat
  isDecl : Bool
  internalLinkage : Bool
deriving DecidableEq, Repr

/-- A module: its functions and the references between symbols.  Each entry
`(u, v)` records one use of function `v` (a call site or an address-taken
use) appearing inside function `u`; `F.use_empty()` holds iff no entry
references `F`. -/
structure IRModule where
  funcs : List IRFunction
  refs : List (Nat × Nat)
deriving DecidableEq, Repr

/-- `F.use_empty()`: no reference anywhere in the unit targets `f`. -/
def useEmpty (m : IRModule) (f : IRFunction) : Bool :=
  m.refs.all (fun r => r.2 != f.fname)

/-- The `ToRemove` worklist, computed in full before any deletion. -/
def removalCandidates (m : IRModule) : List IRFunction :=
  m.funcs.filter (fun f => !f.isDecl && f.internalLinkage && useEmpty m f)

/-- The erase loop: remove exactly the collected functions (erasure is by
identity in the source; the name test below matches it whenever function
names are distinct). -/
def removeUnusedFunctions (m : IRModule) : IRModule :=
  let toRemove := removalCandidates m
  { m with
    funcs := m.funcs.filter (fun f => !(toRemove.map (fun g => g.fname)).contains f.fname) }

/-! ## Auxiliary definitions and concrete test inputs -/

/-- Characters that are lowercase hexadecimal digits (`0-9`, `a-f`). -/
def isLowerHexDigit (c : Nat) : Bool :=
  decide ((48 ≤ c ∧ c ≤ 57) ∨ (97 ≤ c ∧ c ≤ 102))

/-- The successor (`Term->getSuccessor(0)`) of the block named `id` in
function `f`. -/
def succOfBlockIn (f : List BasicBlock) (id : BlockId) : Option BlockId :=
  (f.find? (fun b => b.bid == id)).map blockSucc0

/-- Concrete function for the CFG splitter: an entry block with a single
successor (skipped as entry), an eligible block, a single-instruction block
(skipped), a two-successor block (skipped), and a terminator-less block
(skipped defensively). -/
def exF7 : List BasicBlock :=
  [⟨.named 0, 2, some (.br (.named 1))⟩,
   ⟨.named 1, 1, some (.br (.named 2))⟩,
   ⟨.named 2, 0, some (.br (.named 0))⟩,
   ⟨.named 3, 2, some (.condbr true (.named 0) (.named 1))⟩,
   ⟨.named 4, 2, none⟩]

/-- Concrete function for the flattening engine: entry (two successors, not
flattened), then three flattenable blocks A, B, C collected in that order;
A branches to C, skipping B in the numbering. -/
def exF2 : List BasicBlock :=
  [⟨.named 0, 1, some (.condbr true (.named 1) (.named 2))⟩,
   ⟨.named 1, 0, some (.br (.named 3))⟩,
   ⟨.named 2, 0, some (.br (.named 0))⟩,
   ⟨.named 3, 0, some (.br (.named 0))⟩]

/-- The flattening outcome on `exF2`: A, B, C get identifiers 1, 2, 3; A
stores `ThisID + 1 = 2` although its successor C has identifier 3. -/
def exR2 : FlattenResult :=
  ⟨[(1, .named 1), (2, .named 2), (3, .named 3)],
   [(.named 1, 2), (.named 2, 0), (.named 3, 0)]⟩

/-- Concrete pruner scenario: `A` (external definition) calls `B` (internal,
referenced), `C` is internal and unreferenced, `D` is internal with an
address-taken use inside `A` but no call. -/
def exA : IRFunction := ⟨0, false, false⟩

def exB : IRFunction := ⟨1, false, true⟩

def exC : IRFunction := ⟨2, false, true⟩

def exD : IRFunction := ⟨3, false, true⟩

def exM8 : IRModule := ⟨[exA, exB, exC, exD], [(0, 1), (0, 3)]⟩

/-! ## Codec lemmas -/

theorem xorWithKey_length (key : List Nat) : ∀ (i : Nat) (s : List Nat),
    (xorWithKey key i s).length = s.length
  | _, [] => rfl
  | i, _ :: rest => by simp [xorWithKey, xorWithKey_length key (i + 1) rest]

theorem xorWithKey_mem_lt (key : List Nat) (i : Nat) (s : List Nat) :
    ∀ b ∈ xorWithKey key i s, b < 256 := by
  induction s generalizing i with
  | nil => intro b hb; simp [xorWithKey] at hb
  | cons c rest ih =>
      intro b hb
      simp only [xorWithKey, List.mem_cons] at hb
      rcases hb with h | h
      · subst h; exact Nat.mod_lt _ (by norm_num)
      · exact ih (i + 1) b h

theorem key_byte_lt (key : List Nat) (hk : ∀ b ∈ key, b < 256) (i : Nat) :
    key.getD (i % key.length) 0 < 256 := by
  cases key with
  | nil => simp [List.getD]
  | cons k ks =>
      have hlen : i % (k :: ks).length < (k :: ks).length :=
        Nat.mod_lt _ (by simp)
      rw [List.getD_eq_getElem _ _ hlen]
      exact hk _ (List.getElem_mem hlen)

theorem xorWithKey_invol (key : List Nat) (hk : ∀ b ∈ key, b < 256) :
    ∀ (i : Nat) (s : List Nat), (∀ b ∈ s, b < 256) →
      xorWithKey key i (xorWithKey key i s) = s := by
  intro i s
  induction s generalizing i with
  | nil => intro _; rfl
  | cons c rest ih =>
      intro hs
      have hc : c < 256 := hs c (List.mem_cons_self _ _)
      have hkb : key.getD (i % key.length) 0 < 256 := key_byte_lt key hk i
      have hx : c ^^^ key.getD (i % key.length) 0 < 256 := by
        have h256 : (256 : Nat) = 2 ^ 8 := by norm_num
        rw [h256] at hc hkb ⊢
        exact Nat.xor_lt_two_pow hc hkb
      simp only [xorWithKey, List.cons.injEq]
      constructor
      · rw [Nat.mod_eq_of_lt hx, Nat.xor_assoc, Nat.xor_self, Nat.xor_zero,
          Nat.mod_eq_of_lt hc]
      · exact ih (i + 1) (fun b hb => hs b (List.mem_cons_of_mem _ hb))

theorem chunkPairs_hexFlatten (l : List Nat) :
    chunkPairs ((l.map hexByte).flatten) = l.map hexByte := by
  induction l with
  | nil => rfl
  | cons c rest ih =>
      simp only [List.map_cons, List.flatten_cons, hexByte, List.cons_append,
        List.nil_append]
      show [hexDigitChar (c / 16), hexDigitChar (c % 16)] ::
          chunkPairs ((rest.map hexByte).flatten) = _
      rw [ih]

set_option maxRecDepth 8000 in
theorem stoi16_hexByte : ∀ c : Nat, c < 256 →
    stoi16 (hexByte c) = some (Int.ofNat c) := by
  decide

theorem parseHexGroups_hexBytes (l : List Nat) (hl : ∀ c ∈ l, c < 256) :
    parseHexGroups (l.map hexByte) = some (l.map Int.ofNat) := by
  induction l with
  | nil => rfl
  | cons c rest ih =>
      simp only [List.map_cons, parseHexGroups,
        stoi16_hexByte c (hl c (List.mem_cons_self _ _)),
        ih (fun b hb => hl b (List.mem_cons_of_mem _ hb)), Option.map]

theorem byteOfInt_ofNat (c : Nat) (hc : c < 256) : byteOfInt (Int.ofNat c) = c := by
  unfold byteOfInt
  have h0 : (0 : Int) ≤ Int.ofNat c := Int.ofNat_nonneg c
  have h1 : Int.ofNat c < 256 := by
    show (c : Int) < 256
    exact_mod_cast hc
  rw [Int.emod_eq_of_lt h0 h1]
  rfl

theorem map_byteOfInt_ofNat (l : List Nat) (hl : ∀ c ∈ l, c < 256) :
    (l.map Int.ofNat).map byteOfInt = l := by
  induction l with
  | nil => rfl
  | cons c rest ih =>
      simp only [List.map_cons, byteOfInt_ofNat c (hl c (List.mem_cons_self _ _)),
        ih (fun b hb => hl b (List.mem_cons_of_mem _ hb))]

/-- Shared round-trip fact: on any non-empty key of bytes, encoding succeeds
and decoding the result with the same key restores the input exactly. -/
theorem codec_roundtrip_aux (s k : List Nat) (hk : k ≠ [])
    (hs : ∀ b ∈ s, b < 256) (hkb : ∀ b ∈ k, b < 256) :
    ∃ e, encryptFunctionName s k = .ok e ∧ decryptFunctionName e k = .ok s := by
  cases k with
  | nil => exact absurd rfl hk
  | cons kh kt =>
      refine ⟨((xorWithKey (kh :: kt) 0 s).map hexByte).flatten, rfl, ?_⟩
      have h1 : chunkPairs (((xorWithKey (kh :: kt) 0 s).map hexByte).flatten)
          = (xorWithKey (kh :: kt) 0 s).map hexByte := chunkPairs_hexFlatten _
      have h2 : parseHexGroups ((xorWithKey (kh :: kt) 0 s).map hexByte)
          = some ((xorWithKey (kh :: kt) 0 s).map Int.ofNat) :=
        parseHexGroups_hexBytes _ (xorWithKey_mem_lt _ 0 s)
      simp only [decryptFunctionName, h1, h2]
      rw [map_byteOfInt_ofNat _ (xorWithKey_mem_lt _ 0 s),
        xorWithKey_invol _ hkb 0 s hs]

/-- C1: for every byte sequence `s` (including the empty one) and every
non-empty key `k` (of bytes), decoding the encoding of `s` under `k` with
the same key returns `s` exactly. -/
theorem c1_encode_decode_roundtrip (s k : List Nat) (hk : k ≠ [])
    (hs : ∀ b ∈ s, b < 256) (hkb : ∀ b ∈ k, b < 256) :
    ∃ e, encryptFunctionName s k = .ok e ∧ decryptFunctionName e k = .ok s :=
  codec_roundtrip_aux s k hk hs hkb

/-- Witness for C1 at `s = "hi"`, `k = "k"`, and at the empty plaintext. -/
theorem c1_encode_decode_roundtrip_witness :
    (∃ e, encryptFunctionName [104, 105] [107] = .ok e ∧
        decryptFunctionName e [107] = .ok [104, 105]) ∧
    (∃ e, encryptFunctionName [] [107] = .ok e ∧
        decryptFunctionName e [107] = .ok []) :=
  ⟨c1_encode_decode_roundtrip [104, 105] [107] (by decide) (by decide) (by decide),
   c1_encode_decode_roundtrip [] [107] (by decide) (by decide) (by decide)⟩

/-- C4 counterexample: the claim says the empty key is rejected at entry and
the key-length modulo is never reached; in the source there is no such
guard, and on the one-byte plaintext `"a"` the computation
`i % key.size()` with size zero is reached (undefined behavior), not an
entry rejection. -/
theorem c4_empty_key_counterexample :
    encryptFunctionName [97] [] = .err .modByZero := rfl

/-- C4 amended: `encryptFunctionName` performs no empty-key validation.
With an empty key, an empty plaintext returns the empty string (the loop
never runs), and every non-empty plaintext reaches the modulo-by-zero key
index computation, which is undefined behavior rather than a reported
rejection. -/
theorem c4_empty_key_behavior (s : List Nat) :
    encryptFunctionName s [] = if s = [] then .ok [] else .err .modByZero := by
  cases s with
  | nil => rfl
  | cons c rest => simp [encryptFunctionName]

set_option maxRecDepth 8000 in
theorem hexByte_all_lower : ∀ c : Nat, c < 256 →
    (hexByte c).all isLowerHexDigit = true := by decide

theorem flatten_hexBytes_length (l : List Nat) :
    ((l.map hexByte).flatten).length = 2 * l.length := by
  induction l with
  | nil => rfl
  | cons c rest ih =>
      simp only [List.map_cons, List.flatten_cons, List.length_append, ih,
        hexByte, List.length_cons, List.length_nil, List.length_cons]
      omega

theorem flatten_hexBytes_all (l : List Nat) (hl : ∀ c ∈ l, c < 256) :
    ((l.map hexByte).flatten).all isLowerHexDigit = true := by
  induction l with
  | nil => rfl
  | cons c rest ih =>
      simp only [List.map_cons, List.flatten_cons, List.all_append]
      rw [hexByte_all_lower c (hl c (List.mem_cons_self _ _)),
        ih (fun b hb => hl b (List.mem_cons_of_mem _ hb))]
      rfl

/-- C5: for every plaintext and non-empty key, encoding succeeds, the output
has exactly `2 * len(s)` characters, and every output character is a
lowercase hexadecimal digit. -/
theorem c5_encode_length_charset (s k : List Nat) (hk : k ≠ []) :
    ∃ e, encryptFunctionName s k = .ok e ∧ e.length = 2 * s.length ∧
      e.all isLowerHexDigit = true := by
  cases k with
  | nil => exact absurd rfl hk
  | cons kh kt =>
      refine ⟨_, rfl, ?_, ?_⟩
      · rw [flatten_hexBytes_length, xorWithKey_length]
      · exact flatten_hexBytes_all _ (xorWithKey_mem_lt _ 0 s)

/-- Witness for C5 at `s = "hi"`, `k = "k"`. -/
theorem c5_encode_length_charset_witness :
    ∃ e, encryptFunctionName [104, 105] [107] = .ok e ∧
      e.length = 2 * [104, 105].length ∧ e.all isLowerHexDigit = true :=
  c5_encode_length_charset [104, 105] [107] (by decide)

/-- C6: for all operand bit patterns, the rewritten sequence (volatile store
of 0, volatile load, add 42, subtract 42, add into operand `a`, final add
with operand `b`) computes the same value as the original single `i32`
addition, modulo `2 ^ 32` — including every overflow boundary value, since
the statement is over all of `Nat` and both sides reduce modulo `2 ^ 32`. -/
theorem c6_obf_add_equiv (a b : Nat) : obfAddSequence a b = int32Add a b := by
  unfold obfAddSequence int32Add
  norm_num [Nat.mod_add_mod]

/-! ## Decode without validation: C3, C9, C10 -/

theorem hexDigit_not_space (c : Nat) (hc : isHexDigitChar c = true) :
    isSpaceChar c = false := by
  simp only [isHexDigitChar, decide_eq_true_eq] at hc
  simp only [isSpaceChar, decide_eq_false_iff_not]
  omega

theorem hexDigit_ne_43 (c : Nat) (hc : isHexDigitChar c = true) :
    (c == 43) = false := by
  simp only [isHexDigitChar, decide_eq_true_eq] at hc
  simp only [beq_eq_false_iff_ne]
  omega

theorem hexDigit_ne_45 (c : Nat) (hc : isHexDigitChar c = true) :
    (c == 45) = false := by
  simp only [isHexDigitChar, decide_eq_true_eq] at hc
  simp only [beq_eq_false_iff_ne]
  omega

theorem parseDigits_hex_cons (c : Nat) (rest : List Nat)
    (hc : isHexDigitChar c = true) :
    parseDigits (c :: rest) = some (hexRun (hexDigitVal c) rest) := by
  show (if isHexDigitChar c then some (hexRun (hexDigitVal c) rest) else none) = _
  rw [if_pos hc]

theorem parseDigits_hex_head (a : Nat) (r : List Nat)
    (ha : isHexDigitChar a = true) :
    ∃ w, parseDigits (stripHex0x (a :: r)) = some w := by
  match r with
  | [] => exact ⟨_, by rw [show stripHex0x [a] = [a] from rfl, parseDigits_hex_cons a [] ha]⟩
  | [x] => exact ⟨_, by rw [show stripHex0x [a, x] = [a, x] from rfl,
      parseDigits_hex_cons a [x] ha]⟩
  | x :: d :: rest =>
      by_cases h : (a == 48 && (x == 120 || x == 88) && isHexDigitChar d) = true
      · have hd : isHexDigitChar d = true := by
          simp only [Bool.and_eq_true] at h
          exact h.2
        have hstrip : stripHex0x (a :: x :: d :: rest) = d :: rest := by
          show (if (a == 48 && (x == 120 || x == 88) && isHexDigitChar d) then
            d :: rest else a :: x :: d :: rest) = d :: rest
          rw [if_pos h]
        exact ⟨_, by rw [hstrip, parseDigits_hex_cons d rest hd]⟩
      · have hstrip : stripHex0x (a :: x :: d :: rest) = a :: x :: d :: rest := by
          show (if (a == 48 && (x == 120 || x == 88) && isHexDigitChar d) then
            d :: rest else a :: x :: d :: rest) = a :: x :: d :: rest
          rw [if_neg h]
        exact ⟨_, by rw [hstrip, parseDigits_hex_cons a (x :: d :: rest) ha]⟩

theorem stoi16_hex_head (a : Nat) (r : List Nat) (ha : isHexDigitChar a = true) :
    ∃ v, stoi16 (a :: r) = some v := by
  have hns := hexDigit_not_space a ha
  have h43 := hexDigit_ne_43 a ha
  have h45 := hexDigit_ne_45 a ha
  obtain ⟨w, hw⟩ := parseDigits_hex_head a r ha
  refine ⟨Int.ofNat w, ?_⟩
  simp [stoi16, List.dropWhile_cons, hns, h43, h45, hw]

theorem parseHexGroups_allHex : ∀ (n : Nat) (l : List Nat), l.length ≤ n →
    l.all isHexDigitChar = true →
    ∃ vs, parseHexGroups (chunkPairs l) = some vs ∧
      vs.length = (l.length + 1) / 2 := by
  intro n
  induction n with
  | zero =>
      intro l hl _
      have hnil : l = [] := List.length_eq_zero.mp (Nat.le_zero.mp hl)
      subst hnil
      exact ⟨[], rfl, rfl⟩
  | succ n ih =>
      intro l hl hall
      rcases l with _ | ⟨a, _ | ⟨b, rest⟩⟩
      · exact ⟨[], rfl, rfl⟩
      · have ha : isHexDigitChar a = true := by
          simpa using hall
        obtain ⟨v, hv⟩ := stoi16_hex_head a [] ha
        exact ⟨[v], by simp [chunkPairs, parseHexGroups, hv], by norm_num⟩
      · simp only [List.all_cons, Bool.and_eq_true] at hall
        obtain ⟨ha, hb, hrest⟩ := hall
        obtain ⟨v, hv⟩ := stoi16_hex_head a [b] ha
        obtain ⟨vs, hvs, hlen⟩ := ih rest (by simp at hl ⊢; omega) hrest
        refine ⟨v :: vs, ?_, ?_⟩
        · simp [chunkPairs, parseHexGroups, hv, hvs]
        · simp only [List.length_cons, hlen]
          omega

/-- C3 counterexample: the claim says decoding an odd-length input reports a
format error; on the odd-length all-hex input `"abc"` with key `"k"` the
source instead silently parses the final lone character `'c'` as a one-digit
group and returns a decoded result. -/
theorem c3_decode_odd_counterexample :
    decryptFunctionName [97, 98, 99] [107] = .ok [192, 103] := by decide

/-- C3 amended: decode performs no format validation.  For any odd-length
input made of hex digits and any non-empty key, decoding succeeds silently,
treating the final lone character as a one-digit group, and returns
`(len + 1) / 2` bytes; a group that `std::stoi` cannot parse at all does not
produce a reported decode failure either, but an exception that escapes the
function. -/
theorem c3_decode_no_validation (s k : List Nat) (hk : k ≠ [])
    (hhex : s.all isHexDigitChar = true) (_hodd : s.length % 2 = 1) :
    ∃ r, decryptFunctionName s k = .ok r ∧ r.length = (s.length + 1) / 2 := by
  cases k with
  | nil => exact absurd rfl hk
  | cons kh kt =>
      obtain ⟨vs, hvs, hlen⟩ := parseHexGroups_allHex s.length s le_rfl hhex
      refine ⟨xorWithKey (kh :: kt) 0 (vs.map byteOfInt), ?_, ?_⟩
      · simp [decryptFunctionName, hvs]
      · rw [xorWithKey_length, List.length_map, hlen]

/-- Witness for C3 (amended) at the odd-length input `"abc"`, key `"k"`. -/
theorem c3_decode_no_validation_witness :
    ∃ r, decryptFunctionName [97, 98, 99] [107] = .ok r ∧ r.length = 2 :=
  c3_decode_no_validation [97, 98, 99] [107] (by decide) (by decide) (by decide)

/-- C9 counterexample: the claim says the decoder CLI exits 0 whenever both
arguments are supplied non-empty; with key `"k"` and the non-empty encoded
name `"zz"`, `std::stoi` throws `std::invalid_argument`, which `main` does
not catch, so the process terminates abnormally instead of exiting 0. -/
theorem c9_exit_code_counterexample :
    mainDeobfuscator false [107] [122, 122] = .err .stoiException := by decide

/-- C9 amended: without `-h`, the decoder exits 1 (after printing an error,
with no decoded output) whenever the key or the encoded name is missing or
empty; when both are supplied non-empty it exits 0 after printing the
decoded name provided every character is a hex digit and the length is even
(so every `std::stoi` call succeeds); otherwise the uncaught exception
terminates the process abnormally. -/
theorem c9_exit_codes (key name : List Nat) :
    ((key = [] ∨ name = []) → mainDeobfuscator false key name = .ok 1) ∧
    (key ≠ [] → name ≠ [] → name.all isHexDigitChar = true →
      name.length % 2 = 0 → mainDeobfuscator false key name = .ok 0) := by
  constructor
  · intro h
    have hempty : (key.isEmpty || name.isEmpty) = true := by
      rcases h with h | h <;> subst h <;> simp
    simp [mainDeobfuscator, hempty]
  · intro hk hn hhex _
    obtain ⟨vs, hvs, _⟩ := parseHexGroups_allHex name.length name le_rfl hhex
    cases key with
    | nil => exact absurd rfl hk
    | cons kh kt =>
        have hne : name.isEmpty = false := by
          cases name with
          | nil => exact absurd rfl hn
          | cons _ _ => rfl
        simp [mainDeobfuscator, hne, decryptFunctionName, hvs]

/-- Witness for C9 (amended): a missing key exits 1; a well-formed
invocation exits 0. -/
theorem c9_exit_codes_witness :
    mainDeobfuscator false [] [97] = .ok 1 ∧
    mainDeobfuscator false [107] [48, 49] = .ok 0 :=
  ⟨(c9_exit_codes [] [97]).1 (Or.inl rfl),
   (c9_exit_codes [107] [48, 49]).2 (by decide) (by decide) (by decide) (by decide)⟩

theorem parseHexGroups_underscore (l : List Nat) :
    parseHexGroups (chunkPairs (95 :: l)) = none := by
  cases l with
  | nil => rfl
  | cons x rest => rfl

/-- C10: every function the rename pass actually renames (a definition with
local linkage) gets the symbol `'_' ++ encode(originalName, key)`; that
stored symbol is never the bare encoding (the lengths differ by one);
decoding after stripping the leading underscore recovers the original name,
while decoding the stored symbol as-is does not (its first group starts with
`'_'`, which `std::stoi` rejects). -/
theorem c10_rename_underscore (name key : List Nat) (hk : key ≠ [])
    (hn : ∀ b ∈ name, b < 256) (hkb : ∀ b ∈ key, b < 256) :
    ∃ enc, encryptFunctionName name key = .ok enc ∧
      runCodeRename false true name key = .ok (some (95 :: enc)) ∧
      95 :: enc ≠ enc ∧
      decryptFunctionName ((95 :: enc).drop 1) key = .ok name ∧
      decryptFunctionName (95 :: enc) key = .err .stoiException := by
  obtain ⟨enc, he, hd⟩ := codec_roundtrip_aux name key hk hn hkb
  refine ⟨enc, he, ?_, ?_, ?_, ?_⟩
  · simp [runCodeRename, he]
  · intro h
    have hlen := congrArg List.length h
    simp at hlen
  · simpa using hd
  · simp [decryptFunctionName, parseHexGroups_underscore]

/-- Witness for C10 at name `"h"`, key `"k"`. -/
theorem c10_rename_underscore_witness :
    ∃ enc, encryptFunctionName [104] [107] = .ok enc ∧
      runCodeRename false true [104] [107] = .ok (some (95 :: enc)) ∧
      95 :: enc ≠ enc ∧
      decryptFunctionName ((95 :: enc).drop 1) [107] = .ok [104] ∧
      decryptFunctionName (95 :: enc) [107] = .err .stoiException :=
  c10_rename_underscore [104] [107] (by decide) (by decide) (by decide)

/-! ## CFG splitter: C7 -/

theorem breakBlock_eq_claim (b : BasicBlock) :
    (if breakEligible b = true then breakTransformBlock b else [b])
      = breakClaimBlock b := by
  obtain ⟨bid, len, term⟩ := b
  cases term with
  | none => simp [breakEligible, hasSingleSucc, breakClaimBlock]
  | some t =>
      by_cases h1 : decide (1 < blockSize ⟨bid, len, some t⟩) = true <;>
        by_cases h2 : ((successors t).length == 1) = true <;>
          simp [breakEligible, hasSingleSucc, breakTransformBlock,
            breakClaimBlock, h1, h2]

/-- C7: on any function whose block names are distinct (the model's stand-in
for pointer identity), the CFG splitter rewrites exactly the non-entry
blocks with more than one instruction and a single-successor terminator,
emitting for each the constant-false conditional branch followed
immediately by the split block that jumps to the original successor, and
leaves every other block (entry included) unchanged. -/
theorem c7_breakcfg_characterization (f : List BasicBlock)
    (hnd : (f.map (fun b => b.bid)).Nodup) :
    breakCFGRun f = breakCFGPerClaim f := by
  cases f with
  | nil => rfl
  | cons e rest =>
      rw [List.map_cons, List.nodup_cons] at hnd
      obtain ⟨hent, hrest⟩ := hnd
      have hcol : breakCFGCollect (e :: rest)
          = (rest.filter breakEligible).map (fun b => b.bid) := rfl
      have hrun : breakCFGRun (e :: rest)
          = ((e :: rest).map (fun b =>
              if b.bid ∈ breakCFGCollect (e :: rest) then breakTransformBlock b
              else [b])).flatten := rfl
      have hclaim : breakCFGPerClaim (e :: rest)
          = e :: (rest.map breakClaimBlock).flatten := rfl
      rw [hrun, hclaim]
      have hmem_iff : ∀ b ∈ rest,
          (b.bid ∈ breakCFGCollect (e :: rest)) ↔ breakEligible b = true := by
        intro b hb
        rw [hcol]
        constructor
        · intro hin
          obtain ⟨b', hb', heq⟩ := List.mem_map.mp hin
          obtain ⟨hb'rest, hb'elig⟩ := List.mem_filter.mp hb'
          have hbb : b' = b := List.inj_on_of_nodup_map hrest hb'rest hb heq
          rwa [hbb] at hb'elig
        · intro helig
          exact List.mem_map.mpr ⟨b, List.mem_filter.mpr ⟨hb, helig⟩, rfl⟩
      have he : e.bid ∉ breakCFGCollect (e :: rest) := by
        rw [hcol]
        intro h
        obtain ⟨b', hb', heq⟩ := List.mem_map.mp h
        exact hent (List.mem_map.mpr ⟨b', (List.mem_filter.mp hb').1, heq⟩)
      rw [List.map_cons, List.flatten_cons, if_neg he, List.singleton_append]
      have hpt : ∀ b ∈ rest,
          (if b.bid ∈ breakCFGCollect (e :: rest) then breakTransformBlock b
            else [b]) = breakClaimBlock b := by
        intro b hb
        rw [← breakBlock_eq_claim b]
        by_cases helig : breakEligible b = true
        · rw [if_pos ((hmem_iff b hb).mpr helig), if_pos helig]
        · have hnm : b.bid ∉ breakCFGCollect (e :: rest) :=
            fun h => helig ((hmem_iff b hb).mp h)
          rw [if_neg hnm, if_neg helig]
      rw [List.map_congr_left hpt]

/-- Witness for C7 on a concrete five-block function exercising all skip
reasons (entry, too small, two successors, missing terminator) and one
eligible block. -/
theorem c7_breakcfg_characterization_witness :
    (exF7.map (fun b => b.bid)).Nodup ∧ breakCFGRun exF7 = breakCFGPerClaim exF7 :=
  ⟨by decide, c7_breakcfg_characterization exF7 (by decide)⟩

/-! ## Flattening engine: C2 -/

theorem flattenLoop_spec (entry : BlockId) :
    ∀ (blocks : List BasicBlock) (n : Nat),
      (flattenLoop entry n blocks).cases =
        (List.range' n blocks.length).zip (blocks.map (fun b => b.bid)) ∧
      (flattenLoop entry n blocks).writes =
        ((List.range' n blocks.length).zip blocks).map
          (fun p => (p.2.bid, if blockSucc0 p.2 = entry then 0 else p.1 + 1)) := by
  intro blocks
  induction blocks with
  | nil => intro n; exact ⟨rfl, rfl⟩
  | cons b rest ih =>
      intro n
      obtain ⟨hc, hw⟩ := ih (n + 1)
      constructor
      · simp only [flattenLoop, List.length_cons, List.range'_succ,
          List.map_cons, List.zip_cons_cons, hc]
      · simp only [flattenLoop, List.length_cons, List.range'_succ,
          List.zip_cons_cons, List.map_cons, hw]

/-- C2 counterexample: on the concrete function `exF2`, block `named 1` is
flattened with identifier 1; its successor `named 3` is not the entry block
and carries the assigned identifier 3, yet the value stored before the jump
to the dispatcher is 2, not the successor's assigned identifier. -/
theorem c2_flatten_claim_counterexample :
    flattenFunction exF2 = some exR2 ∧
    (BlockId.named 1, 2) ∈ exR2.writes ∧
    succOfBlockIn exF2 (BlockId.named 1) = some (BlockId.named 3) ∧
    BlockId.named 3 ≠ entryBid exF2 ∧
    assignedIdOf exR2 (BlockId.named 3) = some 3 ∧
    assignedIdOf exR2 (BlockId.named 3) ≠ some 2 := by decide

/-- C2 amended: for every flattened function, the `i`-th collected block
(1-based) receives the dispatcher case `(i, block)`, and the value it stores
before the jump to the dispatcher is 0 when its successor is the entry
block, and otherwise its own identifier plus one (`ThisID + 1`); this equals
the successor's assigned identifier only when the successor happens to be
the next collected block, not for arbitrary numbering orders. -/
theorem c2_flatten_write_formula (f : List BasicBlock) (r : FlattenResult)
    (h : flattenFunction f = some r) :
    r.cases = (List.range' 1 (collectFlattenBlocks f).length).zip
        ((collectFlattenBlocks f).map (fun b => b.bid)) ∧
    r.writes = ((List.range' 1 (collectFlattenBlocks f).length).zip
        (collectFlattenBlocks f)).map
        (fun p => (p.2.bid, if blockSucc0 p.2 = entryBid f then 0 else p.1 + 1)) := by
  unfold flattenFunction at h
  by_cases h2 : f.length < 2
  · rw [if_pos h2] at h
    exact absurd h (by simp)
  · rw [if_neg h2] at h
    by_cases he : (collectFlattenBlocks f).isEmpty = true
    · rw [if_pos he] at h
      exact absurd h (by simp)
    · rw [if_neg he] at h
      injection h with h
      rw [← h]
      exact flattenLoop_spec (entryBid f) (collectFlattenBlocks f) 1

/-- Witness for C2 (amended) on the concrete function `exF2`. -/
theorem c2_flatten_write_formula_witness :
    flattenFunction exF2 = some exR2 ∧
    exR2.writes = ((List.range' 1 (collectFlattenBlocks exF2).length).zip
        (collectFlattenBlocks exF2)).map
        (fun p => (p.2.bid, if blockSucc0 p.2 = entryBid exF2 then 0 else p.1 + 1)) :=
  ⟨by decide, (c2_flatten_write_formula exF2 exR2 (by decide)).2⟩

/-! ## Unused-function pruner: C8 -/

/-- C8: on any module with distinct function names (the model's stand-in for
symbol identity), one pruning pass removes exactly the functions that are
definitions, have internal linkage, and have zero references anywhere in the
unit; the removal set is `removalCandidates`, computed in full before any
deletion. -/
theorem c8_prune_exactly_unused (m : IRModule)
    (hnd : (m.funcs.map (fun f => f.fname)).Nodup)
    (f : IRFunction) (hf : f ∈ m.funcs) :
    f ∉ (removeUnusedFunctions m).funcs ↔
      (f.isDecl = false ∧ f.internalLinkage = true ∧ useEmpty m f = true) := by
  have hres : (removeUnusedFunctions m).funcs
      = m.funcs.filter (fun g =>
          !((removalCandidates m).map (fun g => g.fname)).contains g.fname) := rfl
  have hcand : ∀ g, g ∈ removalCandidates m ↔
      g ∈ m.funcs ∧ (g.isDecl = false ∧ g.internalLinkage = true ∧ useEmpty m g = true) := by
    intro g
    unfold removalCandidates
    rw [List.mem_filter]
    simp [Bool.and_eq_true, Bool.not_eq_true', and_assoc]
  constructor
  · intro hout
    by_contra hnc
    apply hout
    rw [hres, List.mem_filter]
    refine ⟨hf, ?_⟩
    rw [Bool.not_eq_true']
    rw [← Bool.not_eq_true]
    intro hcon
    have hmem : f.fname ∈ (removalCandidates m).map (fun g => g.fname) := by
      simpa using hcon
    obtain ⟨g, hg, hgname⟩ := List.mem_map.mp hmem
    have hgfuncs : g ∈ m.funcs := ((hcand g).mp hg).1
    have hgf : g = f := List.inj_on_of_nodup_map hnd hgfuncs hf hgname
    exact hnc (by rw [← hgf]; exact ((hcand g).mp hg).2)
  · intro hc hin
    rw [hres, List.mem_filter] at hin
    have hfc : f ∈ removalCandidates m := (hcand f).mpr ⟨hf, hc⟩
    have : f.fname ∈ (removalCandidates m).map (fun g => g.fname) :=
      List.mem_map.mpr ⟨f, hfc, rfl⟩
    have hcontains : ((removalCandidates m).map (fun g => g.fname)).contains f.fname = true := by
      simpa using this
    rw [Bool.not_eq_true', hcontains] at hin
    exact absurd hin.2 (by simp)

/-- Witness for C8 on the module `{A calls B, C unreferenced internal,
D internal address-taken but uncalled}`: the characterization applies to
`C`, and one pass leaves exactly `A`, `B`, `D`. -/
theorem c8_prune_exactly_unused_witness :
    (exC ∉ (removeUnusedFunctions exM8).funcs ↔
      (exC.isDecl = false ∧ exC.internalLinkage = true ∧ useEmpty exM8 exC = true)) ∧
    (removeUnusedFunctions exM8).funcs = [exA, exB, exD] :=
  ⟨c8_prune_exactly_unused exM8 (by decide) exC (by decide), by decide⟩

end KovidObf
